import Mathlib

/-!
Verification of the nspp geometric kernels: `buffer_keep` (boundary buffer
filtering) and `pbc_distances` (pairwise distances under periodic boundary
conditions), together with their Rcpp export wrappers `nspp_buffer_keep`
and `nspp_pbc_distances` from `src/RcppExports.cpp`.

Coordinates are modelled as rationals; the final (real-valued) distances
are obtained by taking real square roots of the rational squared distances.
-/

namespace Nspp

/-- A point: one real-valued coordinate per dimension (row of the
`points` NumericMatrix). -/
abbrev Point := List ℚ

/-- The window limits: one (min, max) pair per dimension (row of the
`lims` NumericMatrix, row d = (min_d, max_d)). -/
abbrev Window := List (ℚ × ℚ)

/-- The per-dimension period lengths L[d] = max_d − min_d. -/
def periods (lims : Window) : List ℚ := lims.map (fun l => l.2 - l.1)

/-- Modelled from the spec: the minimum-image wrap of a raw coordinate
difference `diff` into the periodic cell of length `L`:
`wrapped = diff − L · round(diff / L)`.  (The implementation of
`pbc_distances` is not present under `src/`; only its declaration in
`RcppExports.cpp` is.) -/
def wrap (diff L : ℚ) : ℚ := diff - L * (round (diff / L) : ℤ)

/-- Modelled from the spec: the squared periodic distance between two
points, `Σ_d wrapped_d²`, folding over the dimensions. -/
def sqDist : Point → Point → List ℚ → ℚ
  | x :: p, y :: q, L :: Ls => (wrap (x - y) L) ^ 2 + sqDist p q Ls
  | _, _, _ => 0

/-- The ordinary squared Euclidean distance between two points. -/
def euclidSq : Point → Point → ℚ
  | x :: p, y :: q => (x - y) ^ 2 + euclidSq p q
  | _, _ => 0

/-- Modelled from the spec: the inner loop of the pair enumeration, all
pairs (i, j) for a fixed outer index i with j = i+1, …, n−1 in increasing
order. -/
def innerPairs (i n : ℕ) : List (ℕ × ℕ) :=
  (List.range' (i + 1) (n - (i + 1))).map (fun j => (i, j))

/-- Modelled from the spec: the full pair enumeration, outer index i
slower-varying, inner index j faster-varying. -/
def lexPairs (n : ℕ) : List (ℕ × ℕ) :=
  (List.range n).flatMap (fun i => innerPairs i n)

/-- The output position of the pair (i, j) in the enumeration: the number
of pairs listed before it (all pairs with smaller outer index, then the
pairs (i, i+1), …, (i, j−1)). -/
def pairIndex (n i j : ℕ) : ℕ :=
  (((List.range i).map (fun k => n - k - 1)).sum) + (j - i - 1)

/-- Modelled from the spec: whether a single coordinate passes the buffer
test in one dimension: `min + R ≤ x ≤ max − R` (inclusive bounds). -/
def keepFlag (x : ℚ) (l : ℚ × ℚ) (R : ℚ) : Bool :=
  decide (l.1 + R ≤ x ∧ x ≤ l.2 - R)

/-- Modelled from the spec: the unvalidated core of `buffer_keep`: the
N × D boolean matrix of per-point, per-dimension buffer flags, row order
identical to input point order. -/
def buffer_keep_core (points : List Point) (lims : Window) (R : ℚ) :
    List (List Bool) :=
  points.map (fun p => List.zipWith (fun x l => keepFlag x l R) p lims)

/-- Modelled from the spec: the unvalidated core of `pbc_distances`,
producing the squared distances, one per enumerated pair. -/
def pbc_sq_distances_core (points : List Point) (lims : Window) : List ℚ :=
  (lexPairs points.length).map
    (fun ij => sqDist (points.getD ij.1 []) (points.getD ij.2 []) (periods lims))

/-- Window validity: min < max in every dimension (equivalently every
period L[d] is positive). -/
def validWindow (lims : Window) : Bool := lims.all (fun l => l.1 < l.2)

/-- Dimensionality agreement: every point has exactly one coordinate per
window dimension. -/
def dimsOk (points : List Point) (lims : Window) : Bool :=
  points.all (fun p => p.length = lims.length)

/-- The error taxonomy of the component. -/
inductive NsppError where
  | InvalidInput : NsppError
deriving DecidableEq, Repr

/-- Modelled from the spec: `buffer_keep` with its input validation:
`InvalidInput` if any window bound pair has min ≥ max or any point's
dimensionality disagrees with the window's; otherwise the flag matrix. -/
def buffer_keep (points : List Point) (lims : Window) (R : ℚ) :
    Except NsppError (List (List Bool)) :=
  if validWindow lims && dimsOk points lims then
    Except.ok (buffer_keep_core points lims R)
  else
    Except.error NsppError.InvalidInput

/-- Modelled from the spec: `pbc_distances` at the squared-distance level,
with the same input validation. -/
def pbc_sq_distances (points : List Point) (lims : Window) :
    Except NsppError (List ℚ) :=
  if validWindow lims && dimsOk points lims then
    Except.ok (pbc_sq_distances_core points lims)
  else
    Except.error NsppError.InvalidInput

/-- Modelled from the spec: `pbc_distances` proper: the real-valued
periodic Euclidean distances, the square roots of the squared distances. -/
noncomputable def pbc_distances (points : List Point) (lims : Window) :
    Except NsppError (List ℝ) :=
  (pbc_sq_distances points lims).map (fun l => l.map (fun s : ℚ => Real.sqrt (s : ℝ)))

/-- The ambient R random-number-generator state touched by the
`Rcpp::RNGScope` set up in each export wrapper. -/
structure RngState where
  seed : ℕ
deriving DecidableEq, Repr

/-- The value an export wrapper hands back to R: either a wrapped result
or an error condition converted at the boundary. -/
inductive RcppResult (α : Type) where
  | ok : α → RcppResult α
  | error : NsppError → RcppResult α
deriving DecidableEq

/-- The BEGIN_RCPP/END_RCPP guard of `RcppExports.cpp`: any exception
thrown by the enclosed computation is caught at the export boundary and
converted into an error value for the caller. -/
def rcppGuard {α : Type} (body : Except NsppError α) : RcppResult α :=
  match body with
  | Except.ok a => RcppResult.ok a
  | Except.error e => RcppResult.error e

/-- The export wrapper `nspp_buffer_keep` of `RcppExports.cpp`: it sets up
an `RNGScope` over the ambient RNG state, runs `buffer_keep` on the
unwrapped arguments inside the BEGIN_RCPP/END_RCPP guard, and returns the
wrapped result; `buffer_keep` draws no random numbers, so the RNG state is
handed back unchanged. -/
def nspp_buffer_keep (rng : RngState) (points : List Point) (lims : Window)
    (R : ℚ) : RcppResult (List (List Bool)) × RngState :=
  (rcppGuard (buffer_keep points lims R), rng)

/-- The export wrapper `nspp_pbc_distances` of `RcppExports.cpp`, likewise
guarding `pbc_distances` (at the squared-distance level so that the
wrapper stays evaluable). -/
def nspp_pbc_distances (rng : RngState) (points : List Point)
    (lims : Window) : RcppResult (List ℚ) × RngState :=
  (rcppGuard (pbc_sq_distances points lims), rng)

/-! ### Properties of the minimum-image wrap -/

theorem wrap_eq_mul (d L : ℚ) (hL : L ≠ 0) :
    wrap d L = L * (d / L - ((round (d / L) : ℤ) : ℚ)) := by
  have h : L * (d / L) = d := by field_simp
  unfold wrap
  rw [mul_sub, h]

theorem wrap_lb (d L : ℚ) (hL : 0 < L) : -(L / 2) ≤ wrap d L := by
  have h0 : L ≠ 0 := ne_of_gt hL
  rw [wrap_eq_mul d L h0]
  have h1 : ((round (d / L) : ℤ) : ℚ) ≤ d / L + 1 / 2 := by
    rw [round_eq]
    exact_mod_cast Int.floor_le (d / L + 1 / 2)
  have h2 : -(1 / 2 : ℚ) ≤ d / L - ((round (d / L) : ℤ) : ℚ) := by linarith
  have h3 := mul_le_mul_of_nonneg_left h2 (le_of_lt hL)
  linarith

theorem wrap_ub (d L : ℚ) (hL : 0 < L) : wrap d L < L / 2 := by
  have h0 : L ≠ 0 := ne_of_gt hL
  rw [wrap_eq_mul d L h0]
  have h1 : d / L + 1 / 2 < ((round (d / L) : ℤ) : ℚ) + 1 := by
    rw [round_eq]
    exact_mod_cast Int.lt_floor_add_one (d / L + 1 / 2)
  have h2 : d / L - ((round (d / L) : ℤ) : ℚ) < 1 / 2 := by linarith
  have h3 := mul_lt_mul_of_pos_left h2 hL
  linarith

theorem wrap_unique (d L x : ℚ) (k : ℤ) (hL : 0 < L)
    (hx : x = d - L * (k : ℚ)) (h1 : -(L / 2) ≤ x) (h2 : x < L / 2) :
    wrap d L = x := by
  have hlb := wrap_lb d L hL
  have hub := wrap_ub d L hL
  have hdiff : x - wrap d L = L * (((round (d / L) : ℤ) : ℚ) - (k : ℚ)) := by
    unfold wrap
    rw [hx]
    ring
  have habs : |x - wrap d L| < L := by
    rw [abs_lt]
    constructor <;> linarith
  rw [hdiff, abs_mul, abs_of_pos hL] at habs
  have hr1 : |((round (d / L) : ℤ) : ℚ) - (k : ℚ)| < 1 :=
    (mul_lt_iff_lt_one_right hL).mp habs
  have hr2 : |round (d / L) - k| < 1 := by exact_mod_cast hr1
  have hr3 : round (d / L) = k := by
    have := Int.abs_lt_one_iff.mp hr2
    omega
  unfold wrap
  rw [hx, hr3]

theorem wrap_neg_sq (d L : ℚ) (hL : 0 < L) :
    wrap (-d) L ^ 2 = wrap d L ^ 2 := by
  rcases eq_or_lt_of_le (wrap_lb d L hL) with hEq | hGt
  · have hw : wrap d L = d - L * ((round (d / L) : ℤ) : ℚ) := rfl
    have h1 : wrap (-d) L = wrap d L := by
      refine wrap_unique (-d) L (wrap d L) (1 - round (d / L)) hL ?_
        (wrap_lb d L hL) (wrap_ub d L hL)
      push_cast
      linarith [hw, hEq]
    rw [h1]
  · have h1 : wrap (-d) L = -wrap d L := by
      refine wrap_unique (-d) L (-wrap d L) (-round (d / L)) hL ?_ ?_ ?_
      · push_cast
        unfold wrap
        ring
      · linarith [wrap_ub d L hL]
      · linarith [hGt]
    rw [h1]
    ring

theorem wrap_sq_of_abs_le (d L : ℚ) (hL : 0 < L) (h : |d| ≤ L / 2) :
    wrap d L ^ 2 = d ^ 2 := by
  rw [abs_le] at h
  rcases lt_or_eq_of_le h.2 with hlt | heq
  · rw [wrap_unique d L d 0 hL (by push_cast; ring) h.1 hlt]
  · have h1 : wrap d L = -(L / 2) := by
      refine wrap_unique d L (-(L / 2)) 1 hL ?_ (le_refl _) (by linarith)
      push_cast
      linarith
    rw [h1, heq]
    ring

/-! ### Properties of the squared periodic distance -/

theorem periods_pos (lims : Window) (h : validWindow lims = true) :
    ∀ L ∈ periods lims, 0 < L := by
  intro L hL
  rw [periods, List.mem_map] at hL
  obtain ⟨l, hl, rfl⟩ := hL
  rw [validWindow, List.all_eq_true] at h
  have h2 := h l hl
  simp only [decide_eq_true_eq] at h2
  linarith

theorem dimsOk_length (points : List Point) (lims : Window)
    (h : dimsOk points lims = true) : ∀ p ∈ points, p.length = lims.length := by
  intro p hp
  rw [dimsOk, List.all_eq_true] at h
  have h2 := h p hp
  simpa using h2

theorem sqDist_comm (Ls : List ℚ) : ∀ p q : Point, (∀ L ∈ Ls, 0 < L) →
    sqDist p q Ls = sqDist q p Ls := by
  induction Ls with
  | nil =>
    intro p q _
    cases p <;> cases q <;> simp [sqDist]
  | cons L Ls ih =>
    intro p q hLs
    cases p with
    | nil => cases q <;> simp [sqDist]
    | cons x p =>
      cases q with
      | nil => simp [sqDist]
      | cons y q =>
        have hL : 0 < L := hLs L (List.mem_cons_self L Ls)
        have hsym : wrap (y - x) L ^ 2 = wrap (x - y) L ^ 2 := by
          rw [show y - x = -(x - y) by ring, wrap_neg_sq (x - y) L hL]
        simp only [sqDist]
        rw [ih p q (fun L' hL' => hLs L' (List.mem_cons_of_mem L hL')), hsym]

theorem sqDist_eq_euclidSq (Ls : List ℚ) : ∀ p q : Point,
    p.length = Ls.length → q.length = Ls.length →
    (∀ L ∈ Ls, 0 < L) →
    (∀ d, d < Ls.length → |p.getD d 0 - q.getD d 0| ≤ Ls.getD d 0 / 2) →
    sqDist p q Ls = euclidSq p q := by
  induction Ls with
  | nil =>
    intro p q hp hq _ _
    rw [List.length_nil, List.length_eq_zero] at hp hq
    subst hp
    subst hq
    simp [sqDist, euclidSq]
  | cons L Ls ih =>
    intro p q hp hq hpos hhalf
    cases p with
    | nil => simp at hp
    | cons x p =>
      cases q with
      | nil => simp at hq
      | cons y q =>
        have hL : 0 < L := hpos L (List.mem_cons_self L Ls)
        have h0 := hhalf 0 (by simp)
        simp only [List.getD_cons_zero] at h0
        simp only [sqDist, euclidSq]
        rw [wrap_sq_of_abs_le (x - y) L hL h0]
        rw [ih p q (by simpa using hp) (by simpa using hq)
          (fun L' h => hpos L' (List.mem_cons_of_mem L h))
          (fun d hd => by
            have h2 := hhalf (d + 1) (by simpa using Nat.succ_lt_succ hd)
            simpa using h2)]

theorem sqDist_eq_sum (Ls : List ℚ) : ∀ p q : Point,
    p.length = Ls.length → q.length = Ls.length →
    sqDist p q Ls =
      ((List.range Ls.length).map
        (fun d => wrap (p.getD d 0 - q.getD d 0) (Ls.getD d 0) ^ 2)).sum := by
  induction Ls with
  | nil =>
    intro p q _ _
    cases p <;> cases q <;> simp [sqDist]
  | cons L Ls ih =>
    intro p q hp hq
    cases p with
    | nil => simp at hp
    | cons x p =>
      cases q with
      | nil => simp at hq
      | cons y q =>
        simp only [sqDist, List.length_cons, List.range_succ_eq_map,
          List.map_cons, List.sum_cons, List.map_map, List.getD_cons_zero]
        rw [ih p q (by simpa using hp) (by simpa using hq)]
        congr 1

/-! ### Properties of the pair enumeration -/

theorem length_innerPairs (i n : ℕ) : (innerPairs i n).length = n - i - 1 := by
  simp only [innerPairs, List.length_map, List.length_range']
  omega

theorem length_flatMap_innerPairs (m n : ℕ) :
    ((List.range m).flatMap (fun k => innerPairs k n)).length
      = ((List.range m).map (fun k => n - k - 1)).sum := by
  rw [List.length_flatMap]
  refine congrArg List.sum (List.map_congr_left ?_)
  intro k _
  simp only [Function.comp_apply]
  exact length_innerPairs k n

theorem length_lexPairs (n : ℕ) : (lexPairs n).length = n * (n - 1) / 2 := by
  rw [lexPairs, length_flatMap_innerPairs]
  have h1 : List.map (fun k => n - k - 1) (List.range n)
      = List.map (fun k => n - 1 - k) (List.range n) := by
    refine List.map_congr_left ?_
    intro k _
    omega
  have h2 : (List.map (fun k => n - 1 - k) (List.range n)).sum
      = ∑ k ∈ Finset.range n, (n - 1 - k) := rfl
  rw [h1, h2, Finset.sum_range_reflect (fun k => k) n]
  exact Finset.sum_range_id n

theorem lexPairs_split (n i j : ℕ) (hij : i < j) (hj : j < n) :
    ∃ pre post : List (ℕ × ℕ),
      lexPairs n = pre ++ (i, j) :: post ∧ pre.length = pairIndex n i j := by
  have hin : i ≤ n := by omega
  have hrange : List.range n = List.range i ++ List.range' i (n - i) := by
    have h := List.range'_append 0 i (n - i) 1
    rw [Nat.sub_add_cancel hin] at h
    simp only [zero_add, one_mul] at h
    rw [List.range_eq_range', List.range_eq_range', ← h]
  have hsplit2 : List.range' i (n - i) = i :: List.range' (i + 1) (n - i - 1) := by
    have h := List.range'_succ i (n - i - 1) 1
    rw [show (n - i - 1) + 1 = n - i by omega] at h
    exact h
  have hsplit3 : List.range' (i + 1) (n - (i + 1))
      = List.range' (i + 1) (j - i - 1) ++ List.range' j (n - j) := by
    have h := List.range'_append (i + 1) (j - i - 1) (n - j) 1
    rw [show (i + 1) + 1 * (j - i - 1) = j by omega,
      show (n - j) + (j - i - 1) = n - (i + 1) by omega] at h
    exact h.symm
  have hsplit4 : List.range' j (n - j) = j :: List.range' (j + 1) (n - j - 1) := by
    have h := List.range'_succ j (n - j - 1) 1
    rw [show (n - j - 1) + 1 = n - j by omega] at h
    exact h
  refine ⟨(List.range i).flatMap (fun k => innerPairs k n)
      ++ (List.range' (i + 1) (j - i - 1)).map (fun m => (i, m)),
    (List.range' (j + 1) (n - j - 1)).map (fun m => (i, m))
      ++ (List.range' (i + 1) (n - i - 1)).flatMap (fun k => innerPairs k n),
    ?_, ?_⟩
  · rw [lexPairs, hrange, List.flatMap_append, hsplit2, List.flatMap_cons]
    have hinner : innerPairs i n
        = (List.range' (i + 1) (j - i - 1)).map (fun m => (i, m))
          ++ (i, j) :: (List.range' (j + 1) (n - j - 1)).map (fun m => (i, m)) := by
      rw [innerPairs, hsplit3, hsplit4, List.map_append, List.map_cons]
    rw [hinner, show n - i - 1 = n - (i + 1) by omega] at *
    simp [List.append_assoc]
  · rw [List.length_append, length_flatMap_innerPairs, List.length_map,
      List.length_range', pairIndex]

theorem lexPairs_getElem (n i j : ℕ) (hij : i < j) (hj : j < n) :
    (lexPairs n)[pairIndex n i j]? = some (i, j) := by
  obtain ⟨pre, post, heq, hlen⟩ := lexPairs_split n i j hij hj
  rw [heq, List.getElem?_append, hlen, if_neg (lt_irrefl _), Nat.sub_self]
  simp

theorem mem_lexPairs (n : ℕ) (p : ℕ × ℕ) :
    p ∈ lexPairs n ↔ p.1 < p.2 ∧ p.2 < n := by
  rw [lexPairs, List.mem_flatMap]
  constructor
  · rintro ⟨a, ha, hp⟩
    rw [List.mem_range] at ha
    rw [innerPairs, List.mem_map] at hp
    obtain ⟨m, hm, rfl⟩ := hp
    rw [List.mem_range'_1] at hm
    refine ⟨?_, ?_⟩ <;> simp <;> omega
  · rintro ⟨h1, h2⟩
    refine ⟨p.1, ?_, ?_⟩
    · rw [List.mem_range]
      omega
    · rw [innerPairs, List.mem_map]
      refine ⟨p.2, ?_, ?_⟩
      · rw [List.mem_range'_1]
        omega
      · simp

theorem lexPairs_sorted (n : ℕ) :
    List.Pairwise (fun p q : ℕ × ℕ => p.1 < q.1 ∨ (p.1 = q.1 ∧ p.2 < q.2))
      (lexPairs n) := by
  rw [lexPairs, List.flatMap_def, List.pairwise_flatten]
  constructor
  · intro l hl
    rw [List.mem_map] at hl
    obtain ⟨a, _, rfl⟩ := hl
    rw [innerPairs, List.pairwise_map]
    refine List.Pairwise.imp ?_ (List.pairwise_lt_range' _ _)
    intro x y hxy
    exact Or.inr ⟨rfl, hxy⟩
  · rw [List.pairwise_map]
    refine List.Pairwise.imp ?_ (List.pairwise_lt_range n)
    intro a b hab x hx y hy
    have hxa : x.1 = a := by
      rw [innerPairs, List.mem_map] at hx
      obtain ⟨m, _, rfl⟩ := hx
      rfl
    have hyb : y.1 = b := by
      rw [innerPairs, List.mem_map] at hy
      obtain ⟨m, _, rfl⟩ := hy
      rfl
    exact Or.inl (by omega)

/-! ### Unfolding the validated operations on valid input -/

theorem buffer_keep_ok (points : List Point) (lims : Window) (R : ℚ)
    (h1 : validWindow lims = true) (h2 : dimsOk points lims = true) :
    buffer_keep points lims R = Except.ok (buffer_keep_core points lims R) := by
  simp [buffer_keep, h1, h2]

theorem pbc_distances_ok (points : List Point) (lims : Window)
    (h1 : validWindow lims = true) (h2 : dimsOk points lims = true) :
    pbc_distances points lims
      = Except.ok ((pbc_sq_distances_core points lims).map
          (fun s : ℚ => Real.sqrt (s : ℝ))) := by
  simp [pbc_distances, pbc_sq_distances, h1, h2, Except.map]

theorem pbc_core_getElem (points : List Point) (lims : Window) (i j : ℕ)
    (hij : i < j) (hj : j < points.length) :
    (pbc_sq_distances_core points lims)[pairIndex points.length i j]?
      = some (sqDist (points.getD i []) (points.getD j []) (periods lims)) := by
  rw [pbc_sq_distances_core, List.getElem?_map,
    lexPairs_getElem points.length i j hij hj]
  rfl

theorem buffer_keep_core_flag (points : List Point) (lims : Window) (R : ℚ)
    (pi d : ℕ) (h2 : dimsOk points lims = true)
    (hpi : pi < points.length) (hd : d < lims.length) :
    (((buffer_keep_core points lims R).getD pi []).getD d false)
      = decide ((lims.getD d (0, 0)).1 + R ≤ (points.getD pi []).getD d 0 ∧
          (points.getD pi []).getD d 0 ≤ (lims.getD d (0, 0)).2 - R) := by
  have hpi2 : pi < (buffer_keep_core points lims R).length := by
    simpa [buffer_keep_core] using hpi
  rw [List.getD_eq_getElem _ _ hpi2]
  simp only [buffer_keep_core, List.getElem_map]
  have hplen : points[pi].length = lims.length :=
    dimsOk_length points lims h2 points[pi] (List.getElem_mem hpi)
  have hd2 : d < (List.zipWith (fun x l => keepFlag x l R) points[pi] lims).length := by
    rw [List.length_zipWith, hplen]
    omega
  rw [List.getD_eq_getElem _ _ hd2, List.getElem_zipWith]
  have hdp : d < points[pi].length := by omega
  rw [keepFlag, List.getD_eq_getElem points [] hpi,
    List.getD_eq_getElem points[pi] 0 hdp, List.getD_eq_getElem lims (0, 0) hd]

/-! ### The claims -/

/-- C6: the periodic per-pair distance function applied by `pbc_distances`
is symmetric in its two point arguments: the distance the minimum-image
formula yields for the pair (i, j) equals the one it yields for (j, i),
both at the squared level and after taking the square root. -/
theorem pbc_pair_distance_symm (p q : Point) (lims : Window)
    (h1 : validWindow lims = true) :
    sqDist p q (periods lims) = sqDist q p (periods lims) ∧
    Real.sqrt ((sqDist p q (periods lims) : ℚ) : ℝ)
      = Real.sqrt ((sqDist q p (periods lims) : ℚ) : ℝ) := by
  have h := sqDist_comm (periods lims) p q (periods_pos lims h1)
  exact ⟨h, by rw [h]⟩

/-- Witness for C6 at a concrete input: two 1-d points in the window
[0, 10]. -/
theorem pbc_pair_distance_symm_witness :
    validWindow [((0 : ℚ), 10)] = true ∧
    (sqDist [(1 : ℚ)] [(9 : ℚ)] (periods [((0 : ℚ), 10)])
        = sqDist [(9 : ℚ)] [(1 : ℚ)] (periods [((0 : ℚ), 10)]) ∧
      Real.sqrt ((sqDist [(1 : ℚ)] [(9 : ℚ)] (periods [((0 : ℚ), 10)]) : ℚ) : ℝ)
        = Real.sqrt ((sqDist [(9 : ℚ)] [(1 : ℚ)] (periods [((0 : ℚ), 10)]) : ℚ) : ℝ)) :=
  ⟨by decide, pbc_pair_distance_symm [(1 : ℚ)] [(9 : ℚ)] [((0 : ℚ), 10)] (by decide)⟩

/-- C8: a window with min ≥ max in some dimension or a point whose
dimensionality disagrees with the window's makes both operations fail with
InvalidInput, with no partial result. -/
theorem invalid_input_rejected (points : List Point) (lims : Window) (R : ℚ)
    (h : validWindow lims = false ∨ dimsOk points lims = false) :
    buffer_keep points lims R = Except.error NsppError.InvalidInput ∧
    pbc_sq_distances points lims = Except.error NsppError.InvalidInput ∧
    pbc_distances points lims = Except.error NsppError.InvalidInput := by
  have hcond : (validWindow lims && dimsOk points lims) = false := by
    rcases h with h | h <;> simp [h]
  refine ⟨?_, ?_, ?_⟩ <;>
    simp [buffer_keep, pbc_sq_distances, pbc_distances, hcond, Except.map]

/-- Witness for C8 at a concrete input: a window with min > max. -/
theorem invalid_input_rejected_witness :
    (validWindow [((10 : ℚ), 0)] = false ∨
      dimsOk [[(1 : ℚ)]] [((10 : ℚ), 0)] = false) ∧
    (buffer_keep [[(1 : ℚ)]] [((10 : ℚ), 0)] 2
        = Except.error NsppError.InvalidInput ∧
      pbc_sq_distances [[(1 : ℚ)]] [((10 : ℚ), 0)]
        = Except.error NsppError.InvalidInput ∧
      pbc_distances [[(1 : ℚ)]] [((10 : ℚ), 0)]
        = Except.error NsppError.InvalidInput) :=
  ⟨Or.inl (by decide),
    invalid_input_rejected [[(1 : ℚ)]] [((10 : ℚ), 0)] 2 (Or.inl (by decide))⟩

/-- C9: both export wrappers are deterministic pure functions of their
arguments: the returned value does not depend on the ambient RNG state
set up by the wrapper's RNGScope, and the ambient state is handed back
unchanged. -/
theorem wrappers_pure (s s' : RngState) (points : List Point) (lims : Window)
    (R : ℚ) :
    (nspp_buffer_keep s points lims R).1 = (nspp_buffer_keep s' points lims R).1 ∧
    (nspp_buffer_keep s points lims R).2 = s ∧
    (nspp_pbc_distances s points lims).1 = (nspp_pbc_distances s' points lims).1 ∧
    (nspp_pbc_distances s points lims).2 = s :=
  ⟨rfl, rfl, rfl, rfl⟩

/-- C10: each export wrapper runs its computation inside the
BEGIN_RCPP/END_RCPP guard, so an error raised by the implementation is
converted into an error value at the export boundary, and every call
returns either an ok value or an error value (never an unhandled
escape). -/
theorem wrappers_guarded (s : RngState) (points : List Point) (lims : Window)
    (R : ℚ) (e : NsppError) :
    (nspp_buffer_keep s points lims R).1 = rcppGuard (buffer_keep points lims R) ∧
    (nspp_pbc_distances s points lims).1
      = rcppGuard (pbc_sq_distances points lims) ∧
    @rcppGuard (List (List Bool)) (Except.error e) = RcppResult.error e ∧
    (∀ b : Except NsppError (List ℚ),
      (∃ a, rcppGuard b = RcppResult.ok a) ∨
      (∃ er, b = Except.error er ∧ rcppGuard b = RcppResult.error er)) := by
  refine ⟨rfl, rfl, rfl, ?_⟩
  intro b
  cases b with
  | ok a => exact Or.inl ⟨a, rfl⟩
  | error er => exact Or.inr ⟨er, rfl, rfl⟩

/-- C2: for a valid window and matching dimensionality, `buffer_keep`
succeeds and its flag for point `pi` in dimension `d` is true exactly when
`lims[d].min + R ≤ point[d] ≤ lims[d].max − R`, boundary equalities
included. -/
theorem buffer_keep_flag_iff (points : List Point) (lims : Window) (R : ℚ)
    (pi d : ℕ) (h1 : validWindow lims = true) (h2 : dimsOk points lims = true)
    (hR : 0 ≤ R) (hpi : pi < points.length) (hd : d < lims.length) :
    ∃ flags, buffer_keep points lims R = Except.ok flags ∧
      ((flags.getD pi []).getD d false = true ↔
        (lims.getD d (0, 0)).1 + R ≤ (points.getD pi []).getD d 0 ∧
        (points.getD pi []).getD d 0 ≤ (lims.getD d (0, 0)).2 - R) := by
  refine ⟨buffer_keep_core points lims R, buffer_keep_ok points lims R h1 h2, ?_⟩
  rw [buffer_keep_core_flag points lims R pi d h2 hpi hd]
  simp

/-- Witness for C2 at the spec's concrete input: window [0, 10], R = 2 and
a point at x = 2, which passes by boundary inclusivity. -/
theorem buffer_keep_flag_iff_witness :
    validWindow [((0 : ℚ), 10)] = true ∧
    dimsOk [[(2 : ℚ)]] [((0 : ℚ), 10)] = true ∧
    (0 : ℚ) ≤ 2 ∧
    0 < [[(2 : ℚ)]].length ∧ 0 < [((0 : ℚ), 10)].length ∧
    (∃ flags, buffer_keep [[(2 : ℚ)]] [((0 : ℚ), 10)] 2 = Except.ok flags ∧
      ((flags.getD 0 []).getD 0 false = true ↔
        ([((0 : ℚ), 10)].getD 0 (0, 0)).1 + 2
            ≤ ([[(2 : ℚ)]].getD 0 []).getD 0 0 ∧
        ([[(2 : ℚ)]].getD 0 []).getD 0 0
            ≤ ([((0 : ℚ), 10)].getD 0 (0, 0)).2 - 2)) :=
  ⟨by decide, by decide, by decide, by decide, by decide,
    buffer_keep_flag_iff [[(2 : ℚ)]] [((0 : ℚ), 10)] 2 0 0
      (by decide) (by decide) (by decide) (by decide) (by decide)⟩

/-- C5: when the window extent in dimension `d` is smaller than 2R, the
flag `buffer_keep` produces in that dimension is false for every point,
and the input is still accepted (no error). -/
theorem buffer_keep_degenerate_radius (points : List Point) (lims : Window)
    (R : ℚ) (pi d : ℕ) (h1 : validWindow lims = true)
    (h2 : dimsOk points lims = true) (hR : 0 ≤ R)
    (hpi : pi < points.length) (hd : d < lims.length)
    (hextent : (lims.getD d (0, 0)).2 - (lims.getD d (0, 0)).1 < 2 * R) :
    ∃ flags, buffer_keep points lims R = Except.ok flags ∧
      (flags.getD pi []).getD d false = false := by
  refine ⟨buffer_keep_core points lims R, buffer_keep_ok points lims R h1 h2, ?_⟩
  rw [buffer_keep_core_flag points lims R pi d h2 hpi hd]
  rw [decide_eq_false_iff_not]
  rintro ⟨ha, hb⟩
  linarith

/-- Witness for C5 at a concrete input: window [0, 10] with R = 6, a point
at the centre x = 5 still gets flag false. -/
theorem buffer_keep_degenerate_radius_witness :
    validWindow [((0 : ℚ), 10)] = true ∧
    dimsOk [[(5 : ℚ)]] [((0 : ℚ), 10)] = true ∧
    (0 : ℚ) ≤ 6 ∧
    0 < [[(5 : ℚ)]].length ∧ 0 < [((0 : ℚ), 10)].length ∧
    ([((0 : ℚ), 10)].getD 0 (0, 0)).2 - ([((0 : ℚ), 10)].getD 0 (0, 0)).1
      < 2 * 6 ∧
    (∃ flags, buffer_keep [[(5 : ℚ)]] [((0 : ℚ), 10)] 6 = Except.ok flags ∧
      (flags.getD 0 []).getD 0 false = false) :=
  ⟨by decide, by decide, by decide, by decide, by decide, by norm_num,
    buffer_keep_degenerate_radius [[(5 : ℚ)]] [((0 : ℚ), 10)] 6 0 0
      (by decide) (by decide) (by decide) (by decide) (by decide) (by norm_num)⟩

/-- C3: for any point set with a valid window, `pbc_distances` succeeds
and returns exactly N·(N−1)/2 distances; for N < 2 it returns the empty
sequence rather than an error. -/
theorem pbc_distances_count (points : List Point) (lims : Window)
    (h1 : validWindow lims = true) (h2 : dimsOk points lims = true) :
    ∃ ds : List ℝ, pbc_distances points lims = Except.ok ds ∧
      ds.length = points.length * (points.length - 1) / 2 ∧
      (points.length < 2 → ds = []) := by
  refine ⟨_, pbc_distances_ok points lims h1 h2, ?_, ?_⟩
  · rw [List.length_map, pbc_sq_distances_core, List.length_map, length_lexPairs]
  · intro hN
    have hlen : ((pbc_sq_distances_core points lims).map
        (fun s : ℚ => Real.sqrt (s : ℝ))).length = 0 := by
      rw [List.length_map, pbc_sq_distances_core, List.length_map,
        length_lexPairs]
      have h : points.length = 0 ∨ points.length = 1 := by omega
      rcases h with h | h <;> rw [h]
    exact List.length_eq_zero.mp hlen

/-- Witness for C3 at a concrete degenerate input: a single point, so the
result is the empty sequence. -/
theorem pbc_distances_count_witness :
    validWindow [((0 : ℚ), 10)] = true ∧
    dimsOk [[(1 : ℚ)]] [((0 : ℚ), 10)] = true ∧
    (∃ ds : List ℝ, pbc_distances [[(1 : ℚ)]] [((0 : ℚ), 10)] = Except.ok ds ∧
      ds.length = [[(1 : ℚ)]].length * ([[(1 : ℚ)]].length - 1) / 2 ∧
      ([[(1 : ℚ)]].length < 2 → ds = [])) :=
  ⟨by decide, by decide,
    pbc_distances_count [[(1 : ℚ)]] [((0 : ℚ), 10)] (by decide) (by decide)⟩

/-- C1: for a valid window, matching dimensionality and a pair i < j, the
value `pbc_distances` reports at the output position of the pair (i, j) is
the square root of the sum over the dimensions of the squared wrapped
differences, where the wrapped difference is
diff − L·round(diff / L) and lies in [−L/2, L/2]. -/
theorem pbc_distances_pair_value (points : List Point) (lims : Window)
    (i j : ℕ) (h1 : validWindow lims = true) (h2 : dimsOk points lims = true)
    (hij : i < j) (hj : j < points.length) :
    ∃ ds : List ℝ, pbc_distances points lims = Except.ok ds ∧
      ds[pairIndex points.length i j]?
        = some (Real.sqrt ((sqDist (points.getD i []) (points.getD j [])
            (periods lims) : ℚ) : ℝ)) ∧
      sqDist (points.getD i []) (points.getD j []) (periods lims)
        = ((List.range lims.length).map
            (fun d => wrap ((points.getD i []).getD d 0
                - (points.getD j []).getD d 0)
              ((periods lims).getD d 0) ^ 2)).sum ∧
      ∀ d, d < lims.length →
        -(((periods lims).getD d 0) / 2)
            ≤ wrap ((points.getD i []).getD d 0 - (points.getD j []).getD d 0)
                ((periods lims).getD d 0) ∧
          wrap ((points.getD i []).getD d 0 - (points.getD j []).getD d 0)
              ((periods lims).getD d 0) ≤ ((periods lims).getD d 0) / 2 := by
  have hplen : (periods lims).length = lims.length := by simp [periods]
  have hi : i < points.length := by omega
  have hpi : (points.getD i []).length = lims.length := by
    rw [List.getD_eq_getElem points [] hi]
    exact dimsOk_length points lims h2 _ (List.getElem_mem hi)
  have hpj : (points.getD j []).length = lims.length := by
    rw [List.getD_eq_getElem points [] hj]
    exact dimsOk_length points lims h2 _ (List.getElem_mem hj)
  refine ⟨_, pbc_distances_ok points lims h1 h2, ?_, ?_, ?_⟩
  · rw [List.getElem?_map, pbc_core_getElem points lims i j hij hj]
    rfl
  · have h := sqDist_eq_sum (periods lims) (points.getD i []) (points.getD j [])
      (by rw [hpi, hplen]) (by rw [hpj, hplen])
    rw [h, hplen]
  · intro d hd
    have hdL : d < (periods lims).length := by omega
    have hLpos : 0 < (periods lims).getD d 0 := by
      rw [List.getD_eq_getElem _ _ hdL]
      exact periods_pos lims h1 _ (List.getElem_mem hdL)
    exact ⟨wrap_lb _ _ hLpos, le_of_lt (wrap_ub _ _ hLpos)⟩

/-- Witness for C1 at a concrete input: points 1 and 9 in the 1-d window
[0, 10], pair (0, 1). -/
theorem pbc_distances_pair_value_witness :
    validWindow [((0 : ℚ), 10)] = true ∧
    dimsOk [[(1 : ℚ)], [(9 : ℚ)]] [((0 : ℚ), 10)] = true ∧
    0 < 1 ∧ 1 < [[(1 : ℚ)], [(9 : ℚ)]].length ∧
    (∃ ds : List ℝ,
      pbc_distances [[(1 : ℚ)], [(9 : ℚ)]] [((0 : ℚ), 10)] = Except.ok ds ∧
      ds[pairIndex [[(1 : ℚ)], [(9 : ℚ)]].length 0 1]?
        = some (Real.sqrt ((sqDist ([[(1 : ℚ)], [(9 : ℚ)]].getD 0 [])
            ([[(1 : ℚ)], [(9 : ℚ)]].getD 1 [])
            (periods [((0 : ℚ), 10)]) : ℚ) : ℝ)) ∧
      sqDist ([[(1 : ℚ)], [(9 : ℚ)]].getD 0 [])
          ([[(1 : ℚ)], [(9 : ℚ)]].getD 1 []) (periods [((0 : ℚ), 10)])
        = ((List.range [((0 : ℚ), 10)].length).map
            (fun d => wrap (([[(1 : ℚ)], [(9 : ℚ)]].getD 0 []).getD d 0
                - ([[(1 : ℚ)], [(9 : ℚ)]].getD 1 []).getD d 0)
              ((periods [((0 : ℚ), 10)]).getD d 0) ^ 2)).sum ∧
      ∀ d, d < [((0 : ℚ), 10)].length →
        -(((periods [((0 : ℚ), 10)]).getD d 0) / 2)
            ≤ wrap (([[(1 : ℚ)], [(9 : ℚ)]].getD 0 []).getD d 0
                - ([[(1 : ℚ)], [(9 : ℚ)]].getD 1 []).getD d 0)
              ((periods [((0 : ℚ), 10)]).getD d 0) ∧
          wrap (([[(1 : ℚ)], [(9 : ℚ)]].getD 0 []).getD d 0
              - ([[(1 : ℚ)], [(9 : ℚ)]].getD 1 []).getD d 0)
            ((periods [((0 : ℚ), 10)]).getD d 0)
            ≤ ((periods [((0 : ℚ), 10)]).getD d 0) / 2) :=
  ⟨by decide, by decide, by decide, by decide,
    pbc_distances_pair_value [[(1 : ℚ)], [(9 : ℚ)]] [((0 : ℚ), 10)] 0 1
      (by decide) (by decide) (by decide) (by decide)⟩

/-- C4: for a valid window and matching dimensionality the output sequence
of `pbc_distances` is exactly the per-pair distances mapped over the pair
enumeration, the enumeration contains precisely the pairs (i, j) with
i < j < N, it is strictly increasing in the lexicographic order (outer
index slower-varying, inner index faster-varying), and the value at the
output position of each pair (i, j) is the distance of exactly that
pair. -/
theorem pbc_distances_enumeration (points : List Point) (lims : Window)
    (h1 : validWindow lims = true) (h2 : dimsOk points lims = true) :
    ∃ ds : List ℝ, pbc_distances points lims = Except.ok ds ∧
      ds = (lexPairs points.length).map
        (fun ij => Real.sqrt ((sqDist (points.getD ij.1 [])
          (points.getD ij.2 []) (periods lims) : ℚ) : ℝ)) ∧
      (∀ p : ℕ × ℕ, p ∈ lexPairs points.length ↔
        p.1 < p.2 ∧ p.2 < points.length) ∧
      List.Pairwise (fun p q : ℕ × ℕ => p.1 < q.1 ∨ (p.1 = q.1 ∧ p.2 < q.2))
        (lexPairs points.length) ∧
      ∀ i j : ℕ, i < j → j < points.length →
        ds[pairIndex points.length i j]?
          = some (Real.sqrt ((sqDist (points.getD i []) (points.getD j [])
              (periods lims) : ℚ) : ℝ)) := by
  refine ⟨_, pbc_distances_ok points lims h1 h2, ?_,
    mem_lexPairs points.length, lexPairs_sorted points.length, ?_⟩
  · rw [pbc_sq_distances_core, List.map_map]
    rfl
  · intro i j hij hj
    rw [List.getElem?_map, pbc_core_getElem points lims i j hij hj]
    rfl

/-- Witness for C4 at a concrete input: three collinear points in the 1-d
window [0, 10]. -/
theorem pbc_distances_enumeration_witness :
    validWindow [((0 : ℚ), 10)] = true ∧
    dimsOk [[(1 : ℚ)], [(4 : ℚ)], [(9 : ℚ)]] [((0 : ℚ), 10)] = true ∧
    (∃ ds : List ℝ,
      pbc_distances [[(1 : ℚ)], [(4 : ℚ)], [(9 : ℚ)]] [((0 : ℚ), 10)]
        = Except.ok ds ∧
      ds = (lexPairs [[(1 : ℚ)], [(4 : ℚ)], [(9 : ℚ)]].length).map
        (fun ij => Real.sqrt
          ((sqDist ([[(1 : ℚ)], [(4 : ℚ)], [(9 : ℚ)]].getD ij.1 [])
            ([[(1 : ℚ)], [(4 : ℚ)], [(9 : ℚ)]].getD ij.2 [])
            (periods [((0 : ℚ), 10)]) : ℚ) : ℝ)) ∧
      (∀ p : ℕ × ℕ, p ∈ lexPairs [[(1 : ℚ)], [(4 : ℚ)], [(9 : ℚ)]].length ↔
        p.1 < p.2 ∧ p.2 < [[(1 : ℚ)], [(4 : ℚ)], [(9 : ℚ)]].length) ∧
      List.Pairwise (fun p q : ℕ × ℕ => p.1 < q.1 ∨ (p.1 = q.1 ∧ p.2 < q.2))
        (lexPairs [[(1 : ℚ)], [(4 : ℚ)], [(9 : ℚ)]].length) ∧
      ∀ i j : ℕ, i < j → j < [[(1 : ℚ)], [(4 : ℚ)], [(9 : ℚ)]].length →
        ds[pairIndex [[(1 : ℚ)], [(4 : ℚ)], [(9 : ℚ)]].length i j]?
          = some (Real.sqrt
            ((sqDist ([[(1 : ℚ)], [(4 : ℚ)], [(9 : ℚ)]].getD i [])
              ([[(1 : ℚ)], [(4 : ℚ)], [(9 : ℚ)]].getD j [])
              (periods [((0 : ℚ), 10)]) : ℚ) : ℝ))) :=
  ⟨by decide, by decide,
    pbc_distances_enumeration [[(1 : ℚ)], [(4 : ℚ)], [(9 : ℚ)]]
      [((0 : ℚ), 10)] (by decide) (by decide)⟩

/-- C7: when every raw per-dimension difference is at most half the
period in absolute value, the periodic distance coincides with the
ordinary Euclidean distance, both at the squared level and after the
square root: wrapping has no effect. -/
theorem pbc_distances_no_wrap (p q : Point) (lims : Window)
    (h1 : validWindow lims = true)
    (hp : p.length = lims.length) (hq : q.length = lims.length)
    (hhalf : ∀ d, d < lims.length →
      |p.getD d 0 - q.getD d 0| ≤ (periods lims).getD d 0 / 2) :
    sqDist p q (periods lims) = euclidSq p q ∧
    Real.sqrt ((sqDist p q (periods lims) : ℚ) : ℝ)
      = Real.sqrt ((euclidSq p q : ℚ) : ℝ) := by
  have hplen : (periods lims).length = lims.length := by simp [periods]
  have h := sqDist_eq_euclidSq (periods lims) p q (by rw [hp, hplen])
    (by rw [hq, hplen]) (periods_pos lims h1)
    (fun d hd => hhalf d (by omega))
  exact ⟨h, by rw [h]⟩

/-- Witness for C7 at a concrete input: points 1 and 2 near the centre of
the 1-d window [0, 10]. -/
theorem pbc_distances_no_wrap_witness :
    validWindow [((0 : ℚ), 10)] = true ∧
    [(1 : ℚ)].length = [((0 : ℚ), 10)].length ∧
    [(2 : ℚ)].length = [((0 : ℚ), 10)].length ∧
    (∀ d, d < [((0 : ℚ), 10)].length →
      |[(1 : ℚ)].getD d 0 - [(2 : ℚ)].getD d 0|
        ≤ (periods [((0 : ℚ), 10)]).getD d 0 / 2) ∧
    (sqDist [(1 : ℚ)] [(2 : ℚ)] (periods [((0 : ℚ), 10)])
        = euclidSq [(1 : ℚ)] [(2 : ℚ)] ∧
      Real.sqrt ((sqDist [(1 : ℚ)] [(2 : ℚ)] (periods [((0 : ℚ), 10)]) : ℚ) : ℝ)
        = Real.sqrt ((euclidSq [(1 : ℚ)] [(2 : ℚ)] : ℚ) : ℝ)) :=
  ⟨by decide, by decide, by decide,
    (by
      intro d hd
      have hd0 : d = 0 := by simpa using hd
      subst hd0
      norm_num [periods]),
    pbc_distances_no_wrap [(1 : ℚ)] [(2 : ℚ)] [((0 : ℚ), 10)]
      (by decide) (by decide) (by decide)
      (by
        intro d hd
        have hd0 : d = 0 := by simpa using hd
        subst hd0
        norm_num [periods])⟩

end Nspp
